import Mathlib

/-!
Verification of the Defter rich-text/markdown core against its specification.

The development shallowly embeds the TypeScript sources:
  * `src/app/page.tsx` — the editor core: selection metadata (`getSelectionMeta`),
    selection reporting (`handleSelection`), math rendering (`renderMath`),
    inline/block classification (`toInlineAwareHtml`), replacement application
    and undo (`applyAiReplacement`, the undo toast action), the AI submission
    flow (`submitAi`) and the toast auto-dismiss effect.
  * the `/api/ai` route handler (`POST`).

Conventions of the embedding:
  * Strings are Lean `String`s; all inputs considered are ASCII, where JavaScript
    UTF-16 code-unit indexing agrees with character indexing.
  * JavaScript regular-expression passes are implemented as fuel-indexed
    structural recursions over `List Char` (fuel = input length, which is
    always sufficient), so that all definitions compute by kernel reduction.
  * The external libraries `marked` and `katex` are modelled at the interface
    boundary: `katex.renderToString` with `throwOnError: false` is a total
    function and is kept as an explicit parameter `k : Bool → String → String`
    (display-mode flag, LaTeX source); `marked.parse` is modelled by
    `markedParse` on the fragment of plain-text inputs, following marked's
    documented behaviour under the options the source sets
    (`gfm: true, breaks: true`: a single line break renders as `<br>`).
  * `Number((x).toFixed(3))` on a value in `[0,1]` is modelled by exact
    rational rounding to three decimals (`round3`).
-/

/-! ## String helpers (JavaScript primitives on the ASCII fragment) -/

/-- Model of JavaScript `String.prototype.trim` on a character list. -/
def trimChars (l : List Char) : List Char :=
  ((l.dropWhile Char.isWhitespace).reverse.dropWhile Char.isWhitespace).reverse

/-- Model of JavaScript `String.prototype.trim`. -/
def trimStr (s : String) : String :=
  String.mk (trimChars s.data)

/-- Model of JavaScript `plainText.slice(a, b)` for `a ≤ b` (clamping as in JS). -/
def strSlice (s : String) (a b : Nat) : String :=
  String.mk ((s.data.drop a).take (b - a))

/-! ## Selection Metadata (`getSelectionMeta`, page.tsx lines 253-287) -/

/-- Selection Metadata as produced by `getSelectionMeta`: plain-text offsets,
length, rounded document percentage and the two bounded context windows.
The source field `end` is a Lean keyword and is embedded as `endIdx`. -/
structure SelectionMeta where
  start : Nat
  endIdx : Nat
  length : Nat
  percentThroughDocument : ℚ
  contextBefore : String
  contextAfter : String
deriving DecidableEq

/-- A captured DOM `Range`, flattened: `beforeText` is the text of the range
that spans from the start of the editable root to the range's start anchor
(`beforeRange.toString()` in the source), and `selected` is the range's own
textual content (`range.toString()`). -/
structure CapturedRange where
  beforeText : String
  selected : String

/-- Rounding to three decimals: model of `Number((x).toFixed(3))` for
non-negative rationals (ties round up, as JS `toFixed` rounds ties away from
zero and all values here are non-negative). -/
def round3 (q : ℚ) : ℚ :=
  (round (q * 1000) : ℤ) / 1000

/-- Embedding of `getSelectionMeta` (page.tsx lines 253-287).
When the editable root is absent the source returns the all-zero metadata;
otherwise `start` is the length of the flattened text before the range,
`end = start + selected.length`, the context windows are 500-character
clamped slices of the flattened document text, and the percentage is
`0` for an empty document, else `end / plainText.length` to three decimals. -/
def getSelectionMeta (editorPresent : Bool) (plainText : String)
    (r : CapturedRange) : SelectionMeta :=
  if editorPresent = false then
    ⟨0, 0, 0, 0, "", ""⟩
  else
    let start := r.beforeText.length
    let endIdx := start + r.selected.length
    let contextBefore := strSlice plainText (start - 500) start
    let contextAfter := strSlice plainText endIdx (min plainText.length (endIdx + 500))
    let percent : ℚ :=
      if plainText.length = 0 then 0
      else round3 ((endIdx : ℚ) / (plainText.length : ℚ))
    ⟨start, endIdx, r.selected.length, percent, contextBefore, contextAfter⟩

/-- C4: For all `a ≤ b ≤ len(plainText)`, a Selection Range spanning
plain-text offsets `[a,b)` — i.e. a captured range whose before-text has
length `a` and whose selected text has length `b - a` — yields Selection
Metadata with `start = a`, `end = b` and `length = b - a`; a collapsed
range (`a = b`) yields `length = 0`, and the end offset never exceeds the
document length, so the metadata still describes a valid insertion point. -/
theorem getSelectionMeta_offsets (plainText : String) (r : CapturedRange)
    (a b : Nat) (hab : a ≤ b) (hb : b ≤ plainText.length)
    (hstart : r.beforeText.length = a) (hsel : r.selected.length = b - a) :
    (getSelectionMeta true plainText r).start = a ∧
    (getSelectionMeta true plainText r).endIdx = b ∧
    (getSelectionMeta true plainText r).length = b - a ∧
    (getSelectionMeta true plainText r).endIdx ≤ plainText.length := by
  simp only [getSelectionMeta, Bool.true_eq_false, if_false, hstart, hsel]
  exact ⟨trivial, by omega, trivial, by omega⟩

/-- Witness for C4 at the spec's own scenario: document `"The quick fox"`,
selection `"quick"` at offsets `[4, 9)`. -/
theorem getSelectionMeta_offsets_witness :
    (getSelectionMeta true "The quick fox" ⟨"The ", "quick"⟩).start = 4 ∧
    (getSelectionMeta true "The quick fox" ⟨"The ", "quick"⟩).endIdx = 9 ∧
    (getSelectionMeta true "The quick fox" ⟨"The ", "quick"⟩).length = 9 - 4 ∧
    (getSelectionMeta true "The quick fox" ⟨"The ", "quick"⟩).endIdx ≤
      ("The quick fox" : String).length :=
  getSelectionMeta_offsets "The quick fox" ⟨"The ", "quick"⟩ 4 9
    (by decide) (by decide) (by decide) (by decide)

theorem round3_nonneg {q : ℚ} (h : 0 ≤ q) : 0 ≤ round3 q := by
  unfold round3
  have h1 : (0 : ℤ) ≤ round (q * 1000) := by
    rw [round_eq]
    have : ⌊(1 / 2 : ℚ)⌋ ≤ ⌊q * 1000 + 1 / 2⌋ := by
      apply Int.floor_mono
      nlinarith
    have h0 : ⌊(1 / 2 : ℚ)⌋ = 0 := by
      rw [Int.floor_eq_zero_iff]
      constructor <;> norm_num
    omega
  positivity

theorem round3_le_one {q : ℚ} (h : q ≤ 1) : round3 q ≤ 1 := by
  unfold round3
  have h1 : round (q * 1000) ≤ 1000 := by
    rw [round_eq]
    have hle : q * 1000 + 1 / 2 ≤ 1 / 2 + (1000 : ℤ) := by push_cast; nlinarith
    have := Int.floor_mono hle
    rw [Int.floor_add_int] at this
    have h0 : ⌊(1 / 2 : ℚ)⌋ = 0 := by
      rw [Int.floor_eq_zero_iff]
      constructor <;> norm_num
    omega
  rw [div_le_one (by norm_num)]
  exact_mod_cast h1

/-- C5: For every selection lying within the document's plain text,
`percentThroughDocument` equals `0` when the plain text is empty, otherwise
`round(end / len(plainText), 3)`, and it always lies in `[0, 1]`. -/
theorem getSelectionMeta_percent (plainText : String) (r : CapturedRange)
    (h : r.beforeText.length + r.selected.length ≤ plainText.length) :
    (plainText.length = 0 →
      (getSelectionMeta true plainText r).percentThroughDocument = 0) ∧
    (plainText.length ≠ 0 →
      (getSelectionMeta true plainText r).percentThroughDocument =
        round3 (((getSelectionMeta true plainText r).endIdx : ℚ) /
          (plainText.length : ℚ))) ∧
    0 ≤ (getSelectionMeta true plainText r).percentThroughDocument ∧
    (getSelectionMeta true plainText r).percentThroughDocument ≤ 1 := by
  simp only [getSelectionMeta, Bool.true_eq_false, if_false]
  by_cases h0 : plainText.length = 0
  · simp [h0]
  · simp only [h0, if_false, ne_eq, not_false_iff, true_implies, false_implies,
      true_and]
    have hpos : (0 : ℚ) < (plainText.length : ℚ) := by
      exact_mod_cast Nat.pos_of_ne_zero h0
    have hqnn : (0 : ℚ) ≤
        ((r.beforeText.length + r.selected.length : ℕ) : ℚ) / (plainText.length : ℚ) := by
      positivity
    have hq1 : ((r.beforeText.length + r.selected.length : ℕ) : ℚ) /
        (plainText.length : ℚ) ≤ 1 := by
      rw [div_le_one hpos]
      exact_mod_cast h
    exact ⟨round3_nonneg hqnn, round3_le_one hq1⟩

/-- Witness for C5 at the spec's scenario: `"The quick fox"` with selection
`"quick"`; the percentage is `round(9/13, 3)` and lies in `[0, 1]`. -/
theorem getSelectionMeta_percent_witness :
    (("The quick fox" : String).length = 0 →
      (getSelectionMeta true "The quick fox" ⟨"The ", "quick"⟩).percentThroughDocument = 0) ∧
    (("The quick fox" : String).length ≠ 0 →
      (getSelectionMeta true "The quick fox" ⟨"The ", "quick"⟩).percentThroughDocument =
        round3 (((getSelectionMeta true "The quick fox" ⟨"The ", "quick"⟩).endIdx : ℚ) /
          (("The quick fox" : String).length : ℚ))) ∧
    0 ≤ (getSelectionMeta true "The quick fox" ⟨"The ", "quick"⟩).percentThroughDocument ∧
    (getSelectionMeta true "The quick fox" ⟨"The ", "quick"⟩).percentThroughDocument ≤ 1 :=
  getSelectionMeta_percent "The quick fox" ⟨"The ", "quick"⟩ (by decide)

/-! ## Math Expositor (`renderMath`, page.tsx lines 113-140)

The source applies two global regex replacements in order:
block math `/\$\$([\s\S]+?)\$\$/g` first, then inline math
`/(^|[^\\])\$([^\$\n]+?)\$/g`, each wrapping the KaTeX rendering of the
trimmed delimited expression.  KaTeX is called with `throwOnError: false`
and is modelled by an arbitrary total function `k` (first argument is the
`displayMode` flag).  The whole body sits in a `try`/`catch` that returns
the input unchanged if the scan throws. -/

/-- First occurrence of the substring `"$$"` anywhere in the list: returns
the part before it and the part after it. -/
def splitFirstDD : List Char → Option (List Char × List Char)
  | [] => none
  | [_] => none
  | c1 :: c2 :: rest =>
    if c1 = '$' ∧ c2 = '$' then some ([], rest)
    else (splitFirstDD (c2 :: rest)).map fun p => (c1 :: p.1, p.2)

/-- First occurrence of `"$$"` at index `≥ 1`: the lazy match of
`([\s\S]+?)\$\$` — the shortest non-empty content followed by `"$$"`. -/
def splitDDpos : List Char → Option (List Char × List Char)
  | [] => none
  | c :: rest => (splitFirstDD rest).map fun p => (c :: p.1, p.2)

/-- First occurrence of `'$'` in the list. -/
def splitFirstDollar : List Char → Option (List Char × List Char)
  | [] => none
  | c :: rest =>
    if c = '$' then some ([], rest)
    else (splitFirstDollar rest).map fun p => (c :: p.1, p.2)

/-- The inline-math content match `([^\$\n]+?)\$`: the text up to the next
`'$'`, required to be non-empty and to contain no newline. -/
def inlineContent (l : List Char) : Option (List Char × List Char) :=
  match splitFirstDollar l with
  | some (content, rest) =>
    if content = [] ∨ '\n' ∈ content then none else some (content, rest)
  | none => none

/-- The markup the source wraps around display-mode KaTeX output. -/
def blockWrap (s : String) : String :=
  "<div class=\"math-block\">" ++ s ++ "</div>"

/-- The markup the source wraps around inline-mode KaTeX output. -/
def inlineWrap (s : String) : String :=
  "<span class=\"math-inline\">" ++ s ++ "</span>"

/-- Fuel-indexed scan of the block-math replacement
`html.replace(/\$\$([\s\S]+?)\$\$/g, ...)`: at each position, a `"$$"`
opener followed by a lazily matched non-empty content and a `"$$"` closer is
replaced and scanning resumes after the closer; otherwise the scan advances
one character.  Fuel is always instantiated with the input length. -/
def mathBlockPassF (k : Bool → String → String) : Nat → List Char → List Char
  | 0, l => l
  | Nat.succ fuel, l =>
    match l with
    | c1 :: c2 :: rest =>
      if c1 = '$' ∧ c2 = '$' then
        match splitDDpos rest with
        | some (content, rest2) =>
          (blockWrap (k true (trimStr (String.mk content)))).data ++
            mathBlockPassF k fuel rest2
        | none => c1 :: mathBlockPassF k fuel (c2 :: rest)
      else c1 :: mathBlockPassF k fuel (c2 :: rest)
    | l => l

/-- The block-math replacement pass. -/
def mathBlockPass (k : Bool → String → String) (l : List Char) : List Char :=
  mathBlockPassF k l.length l

/-- Fuel-indexed scan of the inline-math replacement away from the start
anchor: a match needs a preceding non-backslash character (`[^\\]`, kept in
the output), a `'$'`, a non-empty newline-free content and a closing `'$'`. -/
def mathInlineAuxF (k : Bool → String → String) : Nat → List Char → List Char
  | 0, l => l
  | Nat.succ fuel, l =>
    match l with
    | c1 :: c2 :: rest =>
      if c2 = '$' ∧ c1 ≠ '\\' then
        match inlineContent rest with
        | some (content, rest2) =>
          c1 :: ((inlineWrap (k false (trimStr (String.mk content)))).data ++
            mathInlineAuxF k fuel rest2)
        | none => c1 :: mathInlineAuxF k fuel (c2 :: rest)
      else c1 :: mathInlineAuxF k fuel (c2 :: rest)
    | l => l

/-- Inline-math scan away from the start anchor. -/
def mathInlineAux (k : Bool → String → String) (l : List Char) : List Char :=
  mathInlineAuxF k l.length l

/-- The inline-math replacement pass, including the `^` alternative of
`(^|[^\\])` which allows a match at the very start of the string. -/
def mathInlinePass (k : Bool → String → String) (l : List Char) : List Char :=
  match l with
  | c :: rest =>
    if c = '$' then
      match inlineContent rest with
      | some (content, rest2) =>
        (inlineWrap (k false (trimStr (String.mk content)))).data ++
          mathInlineAux k rest2
      | none => mathInlineAux k (c :: rest)
    else mathInlineAux k (c :: rest)
  | [] => mathInlineAux k []

/-- The body of `renderMath`'s `try` block: the block pass followed by the
inline pass over its output.  Both passes are total, so the body never
produces an error; the `Except` shape mirrors the `try`. -/
def renderMathBody (k : Bool → String → String) (html : String) :
    Except String String :=
  Except.ok (String.mk (mathInlinePass k (mathBlockPass k html.data)))

/-- Embedding of `renderMath` (page.tsx lines 113-140): the guarded scan,
returning the original input unchanged if the body were to throw. -/
def renderMath (k : Bool → String → String) (html : String) : String :=
  match renderMathBody k html with
  | Except.ok out => out
  | Except.error _ => html

theorem splitFirstDD_sound :
    ∀ (l b a : List Char), splitFirstDD l = some (b, a) →
      l = b ++ '$' :: '$' :: a := by
  intro l
  induction l with
  | nil => intro b a h; simp [splitFirstDD] at h
  | cons c1 t ih =>
    intro b a h
    cases t with
    | nil => simp [splitFirstDD] at h
    | cons c2 rest =>
      simp only [splitFirstDD] at h
      split at h
      · rename_i hc
        simp only [Option.some.injEq, Prod.mk.injEq] at h
        obtain ⟨hb, ha⟩ := h
        subst hb; subst ha
        simp [hc.1, hc.2]
      · cases hs : splitFirstDD (c2 :: rest) with
        | none => rw [hs] at h; simp at h
        | some p =>
          obtain ⟨b', a'⟩ := p
          rw [hs] at h
          simp only [Option.map_some', Option.some.injEq, Prod.mk.injEq] at h
          obtain ⟨hb, ha⟩ := h
          subst hb; subst ha
          simpa using ih b' a' hs

theorem splitDDpos_sound :
    ∀ (l b a : List Char), splitDDpos l = some (b, a) →
      l = b ++ '$' :: '$' :: a ∧ b ≠ [] := by
  intro l b a h
  cases l with
  | nil => simp [splitDDpos] at h
  | cons c rest =>
    simp only [splitDDpos] at h
    cases hs : splitFirstDD rest with
    | none => rw [hs] at h; simp at h
    | some p =>
      obtain ⟨b', a'⟩ := p
      rw [hs] at h
      simp only [Option.map_some', Option.some.injEq, Prod.mk.injEq] at h
      obtain ⟨hb, ha⟩ := h
      subst hb; subst ha
      simpa using splitFirstDD_sound rest b' a' hs

theorem splitFirstDollar_sound :
    ∀ (l b a : List Char), splitFirstDollar l = some (b, a) →
      l = b ++ '$' :: a ∧ '$' ∉ b := by
  intro l
  induction l with
  | nil => intro b a h; simp [splitFirstDollar] at h
  | cons c rest ih =>
    intro b a h
    simp only [splitFirstDollar] at h
    split at h
    · rename_i hc
      simp only [Option.some.injEq, Prod.mk.injEq] at h
      obtain ⟨hb, ha⟩ := h
      subst hb; subst ha
      simp [hc]
    · rename_i hc
      cases hs : splitFirstDollar rest with
      | none => rw [hs] at h; simp at h
      | some p =>
        obtain ⟨b', a'⟩ := p
        rw [hs] at h
        simp only [Option.map_some', Option.some.injEq, Prod.mk.injEq] at h
        obtain ⟨hb, ha⟩ := h
        subst hb; subst ha
        obtain ⟨h1, h2⟩ := ih b' a' hs
        subst h1
        refine ⟨rfl, ?_⟩
        simp only [List.mem_cons, not_or]
        exact ⟨fun hh => hc hh.symm, h2⟩

theorem inlineContent_sound :
    ∀ (l c r : List Char), inlineContent l = some (c, r) →
      l = c ++ '$' :: r ∧ c ≠ [] ∧ '\n' ∉ c ∧ '$' ∉ c := by
  intro l c r h
  cases hs : splitFirstDollar l with
  | none =>
    unfold inlineContent at h
    rw [hs] at h
    simp at h
  | some p =>
    obtain ⟨c', r'⟩ := p
    have h' : (if c' = [] ∨ '\n' ∈ c' then (none : Option (List Char × List Char))
        else some (c', r')) = some (c, r) := by
      rw [← h]; unfold inlineContent; rw [hs]
    by_cases hcond : c' = [] ∨ '\n' ∈ c'
    · rw [if_pos hcond] at h'; simp at h'
    · rw [if_neg hcond] at h'
      simp only [Option.some.injEq, Prod.mk.injEq] at h'
      obtain ⟨hc, hr⟩ := h'
      subst hc; subst hr
      push_neg at hcond
      obtain ⟨h1, h2⟩ := splitFirstDollar_sound l c' r' hs
      exact ⟨h1, hcond.1, hcond.2, h2⟩

theorem mathBlockPassF_nil (k : Bool → String → String) :
    ∀ fuel, mathBlockPassF k fuel [] = [] := by
  intro fuel; cases fuel <;> rfl

theorem mathBlockPassF_one (k : Bool → String → String) (c : Char) :
    ∀ fuel, mathBlockPassF k fuel [c] = [c] := by
  intro fuel; cases fuel <;> rfl

theorem mathBlockPassF_congr (k : Bool → String → String) :
    ∀ n m l, l.length ≤ n → l.length ≤ m →
      mathBlockPassF k n l = mathBlockPassF k m l := by
  intro n
  induction n with
  | zero =>
    intro m l hn _
    have hl : l = [] := List.eq_nil_of_length_eq_zero (Nat.le_zero.mp hn)
    subst hl
    rw [mathBlockPassF_nil, mathBlockPassF_nil]
  | succ n ih =>
    intro m l hn hm
    cases m with
    | zero =>
      have hl : l = [] := List.eq_nil_of_length_eq_zero (Nat.le_zero.mp hm)
      subst hl
      rw [mathBlockPassF_nil, mathBlockPassF_nil]
    | succ m =>
      cases l with
      | nil => rw [mathBlockPassF_nil, mathBlockPassF_nil]
      | cons c1 t =>
        cases t with
        | nil => rw [mathBlockPassF_one, mathBlockPassF_one]
        | cons c2 rest =>
          simp only [List.length_cons] at hn hm
          simp only [mathBlockPassF]
          by_cases hc : c1 = '$' ∧ c2 = '$'
          · simp only [if_pos hc]
            cases hsp : splitDDpos rest with
            | some p =>
              obtain ⟨content, rest2⟩ := p
              obtain ⟨hre, hne⟩ := splitDDpos_sound rest content rest2 hsp
              have hlen : rest2.length + 3 ≤ rest.length := by
                rw [hre]
                cases content with
                | nil => exact absurd rfl hne
                | cons x xs => simp only [List.length_append, List.length_cons]; omega
              dsimp only
              rw [ih m rest2 (by omega) (by omega)]
            | none =>
              dsimp only
              rw [ih m (c2 :: rest) (by simp; omega) (by simp; omega)]
          · simp only [if_neg hc]
            rw [ih m (c2 :: rest) (by simp; omega) (by simp; omega)]

theorem mathBlockPassF_eq (k : Bool → String → String) {n : Nat}
    {l : List Char} (h : l.length ≤ n) :
    mathBlockPassF k n l = mathBlockPass k l :=
  mathBlockPassF_congr k n l.length l h le_rfl

theorem mathInlineAuxF_nil (k : Bool → String → String) :
    ∀ fuel, mathInlineAuxF k fuel [] = [] := by
  intro fuel; cases fuel <;> rfl

theorem mathInlineAuxF_one (k : Bool → String → String) (c : Char) :
    ∀ fuel, mathInlineAuxF k fuel [c] = [c] := by
  intro fuel; cases fuel <;> rfl

theorem mathInlineAuxF_congr (k : Bool → String → String) :
    ∀ n m l, l.length ≤ n → l.length ≤ m →
      mathInlineAuxF k n l = mathInlineAuxF k m l := by
  intro n
  induction n with
  | zero =>
    intro m l hn _
    have hl : l = [] := List.eq_nil_of_length_eq_zero (Nat.le_zero.mp hn)
    subst hl
    rw [mathInlineAuxF_nil, mathInlineAuxF_nil]
  | succ n ih =>
    intro m l hn hm
    cases m with
    | zero =>
      have hl : l = [] := List.eq_nil_of_length_eq_zero (Nat.le_zero.mp hm)
      subst hl
      rw [mathInlineAuxF_nil, mathInlineAuxF_nil]
    | succ m =>
      cases l with
      | nil => rw [mathInlineAuxF_nil, mathInlineAuxF_nil]
      | cons c1 t =>
        cases t with
        | nil => rw [mathInlineAuxF_one, mathInlineAuxF_one]
        | cons c2 rest =>
          simp only [List.length_cons] at hn hm
          simp only [mathInlineAuxF]
          by_cases hc : c2 = '$' ∧ c1 ≠ '\\'
          · simp only [if_pos hc]
            cases hsp : inlineContent rest with
            | some p =>
              obtain ⟨content, rest2⟩ := p
              obtain ⟨hre, hne, _, _⟩ := inlineContent_sound rest content rest2 hsp
              have hlen : rest2.length + 2 ≤ rest.length := by
                rw [hre]
                cases content with
                | nil => exact absurd rfl hne
                | cons x xs => simp only [List.length_append, List.length_cons]; omega
              dsimp only
              rw [ih m rest2 (by omega) (by omega)]
            | none =>
              dsimp only
              rw [ih m (c2 :: rest) (by simp; omega) (by simp; omega)]
          · simp only [if_neg hc]
            rw [ih m (c2 :: rest) (by simp; omega) (by simp; omega)]

theorem mathInlineAuxF_eq (k : Bool → String → String) {n : Nat}
    {l : List Char} (h : l.length ≤ n) :
    mathInlineAuxF k n l = mathInlineAux k l :=
  mathInlineAuxF_congr k n l.length l h le_rfl

theorem splitFirstDD_app (b a : List Char) :
    '$' ∉ b → splitFirstDD (b ++ '$' :: '$' :: a) = some (b, a) := by
  induction b with
  | nil => intro _; simp [splitFirstDD]
  | cons c b' ih =>
    intro hb
    rw [List.mem_cons, not_or] at hb
    obtain ⟨hc, hb'⟩ := hb
    cases b' with
    | nil =>
      have hcc : ¬c = '$' := fun h => hc h.symm
      simp [splitFirstDD, hcc]
    | cons d b'' =>
      have hIH := ih hb'
      have hcond : ¬(c = '$' ∧ d = '$') := fun h => hc h.1.symm
      simp only [List.cons_append] at hIH ⊢
      simp only [splitFirstDD, hcond, if_false]
      rw [hIH]
      rfl

theorem splitDDpos_app (e rest : List Char) (hd : '$' ∉ e) (he : e ≠ []) :
    splitDDpos (e ++ '$' :: '$' :: rest) = some (e, rest) := by
  cases e with
  | nil => exact absurd rfl he
  | cons c e' =>
    rw [List.mem_cons, not_or] at hd
    simp only [List.cons_append, splitDDpos]
    rw [splitFirstDD_app e' rest hd.2]
    rfl

theorem splitFirstDollar_app (b a : List Char) :
    '$' ∉ b → splitFirstDollar (b ++ '$' :: a) = some (b, a) := by
  induction b with
  | nil => intro _; simp [splitFirstDollar]
  | cons c b' ih =>
    intro hb
    rw [List.mem_cons, not_or] at hb
    obtain ⟨hc, hb'⟩ := hb
    have hcond : c ≠ '$' := fun h => hc h.symm
    simp only [List.cons_append, splitFirstDollar, hcond, if_false,
      List.append_eq]
    rw [ih hb']
    rfl

theorem inlineContent_app (e r : List Char) (hd : '$' ∉ e) (he : e ≠ [])
    (hn : '\n' ∉ e) : inlineContent (e ++ '$' :: r) = some (e, r) := by
  unfold inlineContent
  rw [splitFirstDollar_app e r hd]
  dsimp only
  rw [if_neg (by simp [he, hn])]

theorem mathInlineAuxF_ndollar (k : Bool → String → String) :
    ∀ (fuel : Nat) (m : List Char), '$' ∉ m →
      mathInlineAuxF k fuel (m ++ ['$']) = m ++ ['$'] := by
  intro fuel
  induction fuel with
  | zero => intro m _; rfl
  | succ fuel ih =>
    intro m hm
    cases m with
    | nil => exact mathInlineAuxF_one k '$' (fuel + 1)
    | cons c m' =>
      rw [List.mem_cons, not_or] at hm
      obtain ⟨hc, hm'⟩ := hm
      cases m' with
      | nil =>
        simp only [List.cons_append, List.nil_append, mathInlineAuxF]
        by_cases hcb : c = '\\'
        · rw [if_neg (by simp [hcb])]
          rw [mathInlineAuxF_one]
        · rw [if_pos (by simp [hcb])]
          have : inlineContent ([] : List Char) = none := rfl
          rw [this]
          dsimp only
          rw [mathInlineAuxF_one]
      | cons d m'' =>
        have hd : d ≠ '$' := by
          intro h
          exact hm' (h ▸ List.mem_cons_self d m'')
        simp only [List.cons_append, mathInlineAuxF]
        rw [if_neg (fun h => hd h.1)]
        have := ih (d :: m'') (by
          rw [List.mem_cons, not_or]
          exact ⟨fun h => hd h.symm, fun h => hm' (List.mem_cons_of_mem d h)⟩)
        simp only [List.cons_append] at this
        rw [this]

theorem mathBlockPassF_succ (k : Bool → String → String) (fuel : Nat)
    (c1 c2 : Char) (rest : List Char) :
    mathBlockPassF k (fuel + 1) (c1 :: c2 :: rest) =
      if c1 = '$' ∧ c2 = '$' then
        match splitDDpos rest with
        | some (content, rest2) =>
          (blockWrap (k true (trimStr (String.mk content)))).data ++
            mathBlockPassF k fuel rest2
        | none => c1 :: mathBlockPassF k fuel (c2 :: rest)
      else c1 :: mathBlockPassF k fuel (c2 :: rest) := rfl

theorem mathInlineAuxF_succ (k : Bool → String → String) (fuel : Nat)
    (c1 c2 : Char) (rest : List Char) :
    mathInlineAuxF k (fuel + 1) (c1 :: c2 :: rest) =
      if c2 = '$' ∧ c1 ≠ '\\' then
        match inlineContent rest with
        | some (content, rest2) =>
          c1 :: ((inlineWrap (k false (trimStr (String.mk content)))).data ++
            mathInlineAuxF k fuel rest2)
        | none => c1 :: mathInlineAuxF k fuel (c2 :: rest)
      else c1 :: mathInlineAuxF k fuel (c2 :: rest) := rfl

theorem mathBlockPass_block (k : Bool → String → String) (e rest : List Char)
    (he : e ≠ []) (hd : '$' ∉ e) :
    mathBlockPass k ('$' :: '$' :: (e ++ '$' :: '$' :: rest)) =
      (blockWrap (k true (trimStr (String.mk e)))).data ++ mathBlockPass k rest := by
  unfold mathBlockPass
  rw [show ('$' :: '$' :: (e ++ '$' :: '$' :: rest)).length
      = (e.length + rest.length + 3) + 1 from by
    simp only [List.length_cons, List.length_append]; omega]
  rw [mathBlockPassF_succ]
  rw [if_pos ⟨rfl, rfl⟩]
  rw [splitDDpos_app e rest hd he]
  dsimp only
  rw [mathBlockPassF_eq k (by omega : rest.length ≤ e.length + rest.length + 3)]
  rfl

theorem mathInlinePass_start (k : Bool → String → String) (e rest : List Char)
    (he : e ≠ []) (hd : '$' ∉ e) (hn : '\n' ∉ e) :
    mathInlinePass k ('$' :: (e ++ '$' :: rest)) =
      (inlineWrap (k false (trimStr (String.mk e)))).data ++ mathInlineAux k rest := by
  simp only [mathInlinePass]
  rw [if_pos trivial]
  rw [inlineContent_app e rest hd he hn]

theorem mathInlinePass_newline_guard (k : Bool → String → String)
    (e : List Char) (hd : '$' ∉ e) (hn : '\n' ∈ e) :
    mathInlinePass k ('$' :: (e ++ ['$'])) = '$' :: (e ++ ['$']) := by
  have h1 : inlineContent (e ++ ['$']) = none := by
    unfold inlineContent
    rw [splitFirstDollar_app e [] hd]
    dsimp only
    rw [if_pos (Or.inr hn)]
  simp only [mathInlinePass]
  rw [if_pos trivial, h1]
  dsimp only
  obtain ⟨c, e', rfl⟩ : ∃ c e', e = c :: e' := by
    cases e with
    | nil => simp at hn
    | cons c e' => exact ⟨c, e', rfl⟩
  have hc : c ≠ '$' := by
    intro h
    exact hd (h ▸ List.mem_cons_self c e')
  simp only [List.cons_append]
  unfold mathInlineAux
  rw [show ('$' :: c :: (e' ++ ['$'])).length = (e'.length + 2) + 1 from by
    simp only [List.length_cons, List.length_append, List.length_nil]]
  rw [mathInlineAuxF_succ]
  have hne : ¬(c = '$' ∧ ('$' : Char) ≠ '\\') := fun h => hc h.1
  rw [if_neg hne]
  have h2 := mathInlineAuxF_ndollar k (e'.length + 2) (c :: e') hd
  simp only [List.cons_append] at h2
  rw [h2]

theorem mathInlinePass_backslash_guard (k : Bool → String → String)
    (e : List Char) (hd : '$' ∉ e) (he : e ≠ []) :
    mathInlinePass k ('\\' :: '$' :: (e ++ ['$'])) =
      '\\' :: '$' :: (e ++ ['$']) := by
  obtain ⟨c, e', rfl⟩ : ∃ c e', e = c :: e' := by
    cases e with
    | nil => exact absurd rfl he
    | cons c e' => exact ⟨c, e', rfl⟩
  have hc : c ≠ '$' := by
    intro h
    exact hd (h ▸ List.mem_cons_self c e')
  simp only [List.cons_append]
  simp only [mathInlinePass]
  have hne1 : ¬(('\\' : Char) = '$') := by decide
  rw [if_neg hne1]
  unfold mathInlineAux
  rw [show ('\\' :: '$' :: c :: (e' ++ ['$'])).length
      = ((e'.length + 2) + 1) + 1 from by
    simp only [List.length_cons, List.length_append, List.length_nil]]
  rw [mathInlineAuxF_succ]
  have hne2 : ¬(('$' : Char) = '$' ∧ ('\\' : Char) ≠ '\\') := by
    intro h
    exact h.2 rfl
  rw [if_neg hne2]
  rw [mathInlineAuxF_succ]
  have hne3 : ¬(c = '$' ∧ ('$' : Char) ≠ '\\') := fun h => hc h.1
  rw [if_neg hne3]
  have h2 := mathInlineAuxF_ndollar k (e'.length + 2) (c :: e') hd
  simp only [List.cons_append] at h2
  rw [h2]

/-- C6: For every input, the Math Expositor runs the block pass first and
the inline pass second (and its guarded body never errors, so the
return-input-unchanged fallback never loses content); every double-dollar
span — whose content may span lines, as `e` is an arbitrary dollar-free
non-empty character list — is replaced by display-mode math markup around
the trimmed expression; every single-dollar span with non-empty,
newline-free content is replaced by inline-mode math markup; a
single-dollar span whose content contains a newline is not replaced; and a
single-dollar span preceded by an escaping backslash is not replaced.
KaTeX is an arbitrary total function `k`, reflecting `throwOnError: false`:
malformed LaTeX yields error markup from `k` but never aborts the pass. -/
theorem renderMath_spec (k : Bool → String → String) :
    (∀ html, renderMathBody k html =
        Except.ok (String.mk (mathInlinePass k (mathBlockPass k html.data)))) ∧
    (∀ html, renderMath k html =
        String.mk (mathInlinePass k (mathBlockPass k html.data))) ∧
    (∀ e rest, e ≠ [] → '$' ∉ e →
        mathBlockPass k ('$' :: '$' :: (e ++ '$' :: '$' :: rest)) =
          (blockWrap (k true (trimStr (String.mk e)))).data ++
            mathBlockPass k rest) ∧
    (∀ e rest, e ≠ [] → '$' ∉ e → '\n' ∉ e →
        mathInlinePass k ('$' :: (e ++ '$' :: rest)) =
          (inlineWrap (k false (trimStr (String.mk e)))).data ++
            mathInlineAux k rest) ∧
    (∀ e, '$' ∉ e → '\n' ∈ e →
        mathInlinePass k ('$' :: (e ++ ['$'])) = '$' :: (e ++ ['$'])) ∧
    (∀ e, '$' ∉ e → e ≠ [] →
        mathInlinePass k ('\\' :: '$' :: (e ++ ['$'])) =
          '\\' :: '$' :: (e ++ ['$'])) :=
  ⟨fun _ => rfl, fun _ => rfl,
   fun e rest he hd => mathBlockPass_block k e rest he hd,
   fun e rest he hd hn => mathInlinePass_start k e rest he hd hn,
   fun e hd hn => mathInlinePass_newline_guard k e hd hn,
   fun e hd he => mathInlinePass_backslash_guard k e hd he⟩

/-- Witness for C6: a block span whose content spans a line break is
rendered in display mode, and a backslash-escaped inline span is left
alone, at a concrete renderer. -/
theorem renderMath_spec_witness :
    mathBlockPass (fun _ e => e)
        ('$' :: '$' :: (('x' :: '\n' :: 'y' :: []) ++ '$' :: '$' :: [])) =
      (blockWrap ((fun (_ : Bool) (e : String) => e) true
          (trimStr (String.mk ('x' :: '\n' :: 'y' :: []))))).data ++
        mathBlockPass (fun _ e => e) [] ∧
    mathInlinePass (fun _ e => e) ('\\' :: '$' :: (('a' :: []) ++ ['$'])) =
      '\\' :: '$' :: (('a' :: []) ++ ['$']) :=
  ⟨(renderMath_spec (fun _ e => e)).2.2.1 ('x' :: '\n' :: 'y' :: []) []
      (by decide) (by decide),
   (renderMath_spec (fun _ e => e)).2.2.2.2.2 ('a' :: []) (by decide) (by decide)⟩

/-! ## Inline/Block Classifier (`toInlineAwareHtml`, page.tsx lines 179-193)

`toInlineAwareHtml` parses the trimmed replacement with `marked.parse`,
unwraps the outer `<p>` wrapper when the trimmed input has no blank-line
break (collapsing runs of literal newline characters to single spaces),
and finally runs the Math Expositor over the fragment. -/

/-- Split a character list at every (non-overlapping, leftmost) occurrence
of a blank-line break `"\n\n"` — the separators used by the paragraph
model of the markdown renderer. -/
def splitParagraphs : List Char → List (List Char)
  | '\n' :: '\n' :: rest => [] :: splitParagraphs rest
  | c :: rest =>
    match splitParagraphs rest with
    | p :: ps => (c :: p) :: ps
    | [] => [[c]]
  | [] => [[]]

/-- Replace every newline character by the hard-break tag `<br>`. -/
def brSubst : List Char → List Char
  | '\n' :: rest => '<' :: 'b' :: 'r' :: '>' :: brSubst rest
  | c :: rest => c :: brSubst rest
  | [] => []

/-- Model of the external `marked.parse` under the options the source sets
(`marked.setOptions({ gfm: true, breaks: true })`, page.tsx lines 66-69),
faithful on the fragment of plain-text inputs without markdown syntax
characters: the empty string parses to the empty string; otherwise each
blank-line-separated chunk becomes a `<p>…</p>\n` paragraph in which every
single line break renders as a `<br>` hard-break tag (the documented
effect of `breaks: true`). -/
def markedParse (md : String) : String :=
  if md.data.isEmpty then ""
  else
    String.join ((splitParagraphs md.data).map fun p =>
      "<p>" ++ String.mk (brSubst p) ++ "</p>\n")

/-- Model of the test `trimmed.includes("\n\n")`. -/
def hasBlankBreak : List Char → Bool
  | '\n' :: '\n' :: _ => true
  | _ :: rest => hasBlankBreak rest
  | [] => false

/-- Model of the match `/^<p>([\s\S]*)<\/p>\s*$/` on the parsed markup:
strip trailing whitespace (the `\s*$` part), then require a leading
`"<p>"` and a trailing `"</p>"`; the greedy group is everything between
them. -/
def unwrapParagraph (html : String) : Option String :=
  let t := (html.data.reverse.dropWhile Char.isWhitespace).reverse
  if "<p>".data.isPrefixOf t ∧ "</p>".data.reverse.isPrefixOf t.reverse then
    some (String.mk ((t.drop 3).take (t.length - 7)))
  else none

/-- Model of `match[1].replace(/\n+/g, " ")`: each maximal run of newline
characters becomes a single space.  The boolean tracks whether the
previous character was a newline. -/
def collapseNLAux : Bool → List Char → List Char
  | _, [] => []
  | inRun, c :: rest =>
    if c = '\n' then
      if inRun then collapseNLAux true rest
      else ' ' :: collapseNLAux true rest
    else c :: collapseNLAux false rest

/-- Runs of newlines collapse to single spaces. -/
def collapseNewlines (s : String) : String :=
  String.mk (collapseNLAux false s.data)

/-- Embedding of `toInlineAwareHtml` (page.tsx lines 179-193): trim, parse
as markdown, unwrap the outer paragraph (collapsing literal newline runs)
when the trimmed input has no blank-line break, then run the Math
Expositor. -/
def toInlineAwareHtml (k : Bool → String → String) (text : String) : String :=
  let trimmed := trimStr text
  let html := markedParse trimmed
  let html2 :=
    if hasBlankBreak trimmed.data = false then
      match unwrapParagraph html with
      | some inner => collapseNewlines inner
      | none => html
    else html
  renderMath k html2

/-- C3 (code evaluated at the failing input): the replacement string
`"a\nb"` has no blank-line break, so the classifier treats it as inline
and strips the paragraph wrapper — but because the renderer is configured
with `breaks: true`, the internal newline has already become a `<br>`
hard-break tag, which the newline-collapsing step does not touch: the
resulting inline fragment is `"a<br>b"`, which contains a hard line
break, contradicting the claim that inline content never does. -/
theorem toInlineAwareHtml_newline_hard_break :
    toInlineAwareHtml (fun _ e => e) "a\nb" = "a<br>b" ∧
    (∃ pre post, toInlineAwareHtml (fun _ e => e) "a\nb" =
      pre ++ "<br>" ++ post) :=
  ⟨by decide, "a", "b", by decide⟩

/-! ## Editor state and the AI edit session (page.tsx lines 71-362, 569-575)

The rich-text tree is modelled by its serialized markup string
(`editorRef.current.innerHTML`); a captured DOM `Range` by a start offset
and length into that string, with `document.execCommand("insertHTML")`
replacing exactly that span.  The markdown normalizer (`turndown`) is an
external collaborator and is kept as an explicit parameter
`normalize : String → String`. -/

/-- The Document: serialized rich content plus the markdown state
(`editorRef.current.innerHTML` and the React `markdown` state). -/
structure EditorDoc where
  html : String
  markdown : String
deriving DecidableEq

/-- A captured selection range over the serialized rich content
(`selectionRangeRef.current`). -/
structure DomRange where
  start : Nat
  len : Nat
deriving DecidableEq

/-- A toast notification: its message and whether it carries the undo
action closure (`onAction`). -/
structure ToastState where
  message : String
  hasUndoAction : Bool
deriving DecidableEq

/-- The application state relevant to the AI edit session: the editable
root (present or not), the Document, the captured selection range, the
Undo Snapshot (`aiUndoRef.current`), the toast, and the AI popover state. -/
structure AppState where
  editorPresent : Bool
  doc : EditorDoc
  selRange : Option DomRange
  aiUndo : Option EditorDoc
  toast : Option ToastState
  aiOpen : Bool
  aiPrompt : String
  aiLoading : Bool
deriving DecidableEq

/-- Replace the span `[a, a+len)` of `s` with `ins`: the effect of
restoring the captured range as the live selection and running
`document.execCommand("insertHTML", false, ins)`. -/
def spliceStr (s : String) (a len : Nat) (ins : String) : String :=
  String.mk (s.data.take a ++ ins.data ++ s.data.drop (a + len))

/-- Embedding of `applyAiReplacement` (page.tsx lines 289-318).  If the
editable root or the captured range is missing, the operation is a no-op;
otherwise it (1) snapshots the current rich content and markdown into the
Undo Snapshot, overwriting any prior snapshot, (2) splices the
inline-aware fragment over the captured range, (3) re-derives markdown
from the mutated content via the normalizer, and (4) shows the
"AI edit applied." toast carrying the undo action. -/
def applyAiReplacement (normalize : String → String)
    (k : Bool → String → String) (s : AppState) (replacement : String) :
    AppState :=
  match s.editorPresent, s.selRange with
  | true, some r =>
    let newHtml := spliceStr s.doc.html r.start r.len (toInlineAwareHtml k replacement)
    { s with
      doc := ⟨newHtml, normalize newHtml⟩
      aiUndo := some s.doc
      toast := some ⟨"AI edit applied.", true⟩ }
  | _, _ => s

/-- Embedding of the undo toast action (page.tsx lines 308-314): restore
the snapshot's rich content and markdown, clear the snapshot, dismiss the
toast; a no-op if the editable root or the snapshot is missing. -/
def undoAction (s : AppState) : AppState :=
  match s.editorPresent, s.aiUndo with
  | true, some snap =>
    { s with doc := snap, aiUndo := none, toast := none }
  | _, _ => s

/-- The transport-level response `submitAi` sees: `response.ok` and the
parsed body's `replacementText` field (`none` models a missing field). -/
structure AiHttpResponse where
  ok : Bool
  replacementText : Option String
deriving DecidableEq

/-- Embedding of `submitAi` (page.tsx lines 320-362).  A missing range,
missing editable root or blank prompt closes the popover and does nothing
else.  Otherwise a non-ok response produces the retry toast, while an ok
response applies `data.replacementText` unconditionally (a missing field
reaches `applyAiReplacement` as `undefined` and is coalesced to `""` by
`replacement || ""`); the `finally` clause then resets the loading flag,
closes the popover and clears the prompt. -/
def submitAi (normalize : String → String) (k : Bool → String → String)
    (s : AppState) (resp : AiHttpResponse) : AppState :=
  if s.selRange.isNone ∨ s.editorPresent = false ∨ (trimStr s.aiPrompt).data.isEmpty then
    { s with aiOpen := false }
  else
    let s1 :=
      if resp.ok then
        applyAiReplacement normalize k s (resp.replacementText.getD "")
      else
        { s with toast := some ⟨"AI request failed. Try again.", false⟩ }
    { s1 with aiLoading := false, aiOpen := false, aiPrompt := "" }

/-- Embedding of the toast auto-dismiss effect (page.tsx lines 569-575):
when the timer fires, the toast is cleared; nothing else — in particular
not the Undo Snapshot — is touched. -/
def toastTimeoutStep (s : AppState) : AppState :=
  match s.toast with
  | some _ => { s with toast := none }
  | none => s

/-- C1 (counterexample): the external service reports transport success
with an empty `replacementText` for the selection `"quick"` in
`"The quick fox"`; `submitAi` applies it anyway — the Document's rich
content changes to `"The  fox"` and the success notice
`"AI edit applied."` is shown, not a failure notice: the claim that the
core treats an empty `replacementText` on a successful transport as a
failure (Document unmodified, failure notice) is false on the code. -/
theorem submitAi_empty_replacement_counterexample :
    (submitAi (fun h => h) (fun _ e => e)
        ⟨true, ⟨"The quick fox", "The quick fox"⟩, some ⟨4, 5⟩, none, none,
          true, "improve", true⟩
        ⟨true, some ""⟩).doc.html = "The  fox" ∧
    (submitAi (fun h => h) (fun _ e => e)
        ⟨true, ⟨"The quick fox", "The quick fox"⟩, some ⟨4, 5⟩, none, none,
          true, "improve", true⟩
        ⟨true, some ""⟩).doc.html ≠ "The quick fox" ∧
    (submitAi (fun h => h) (fun _ e => e)
        ⟨true, ⟨"The quick fox", "The quick fox"⟩, some ⟨4, 5⟩, none, none,
          true, "improve", true⟩
        ⟨true, some ""⟩).toast = some ⟨"AI edit applied.", true⟩ := by
  decide

/-- C1 (amended): on a transport-success response whose `replacementText`
is empty or missing, the core does not treat it as a failure: it applies
the empty replacement — deleting the selected span — takes an undo
snapshot of the pre-replacement Document, and shows the success notice
"AI edit applied.".  (Emptiness is guarded only in the `/api/ai` route,
not in the core.) -/
theorem submitAi_empty_success_applies (normalize : String → String)
    (k : Bool → String → String) (s : AppState) (r : DomRange)
    (rt : Option String)
    (hE : s.editorPresent = true) (hR : s.selRange = some r)
    (hP : (trimStr s.aiPrompt).data.isEmpty = false)
    (hrt : rt = none ∨ rt = some "") :
    (submitAi normalize k s ⟨true, rt⟩).doc.html =
      spliceStr s.doc.html r.start r.len "" ∧
    (submitAi normalize k s ⟨true, rt⟩).toast =
      some ⟨"AI edit applied.", true⟩ ∧
    (submitAi normalize k s ⟨true, rt⟩).aiUndo = some s.doc := by
  have h0 : toInlineAwareHtml k "" = "" := rfl
  have hgd : rt.getD "" = "" := by
    cases hrt with
    | inl h => subst h; rfl
    | inr h => subst h; rfl
  unfold submitAi
  rw [if_neg (by simp [hR, hE, hP])]
  simp only [applyAiReplacement, hE, hR, hgd, h0]
  exact ⟨rfl, rfl, rfl⟩

/-- Witness for the amended C1 at the counterexample's concrete input. -/
theorem submitAi_empty_success_applies_witness :
    (submitAi (fun h => h) (fun _ e => e)
        ⟨true, ⟨"The quick fox", "The quick fox"⟩, some ⟨4, 5⟩, none, none,
          true, "improve", true⟩
        ⟨true, some ""⟩).doc.html = spliceStr "The quick fox" 4 5 "" ∧
    (submitAi (fun h => h) (fun _ e => e)
        ⟨true, ⟨"The quick fox", "The quick fox"⟩, some ⟨4, 5⟩, none, none,
          true, "improve", true⟩
        ⟨true, some ""⟩).toast = some ⟨"AI edit applied.", true⟩ ∧
    (submitAi (fun h => h) (fun _ e => e)
        ⟨true, ⟨"The quick fox", "The quick fox"⟩, some ⟨4, 5⟩, none, none,
          true, "improve", true⟩
        ⟨true, some ""⟩).aiUndo = some ⟨"The quick fox", "The quick fox"⟩ :=
  submitAi_empty_success_applies (fun h => h) (fun _ e => e)
    ⟨true, ⟨"The quick fox", "The quick fox"⟩, some ⟨4, 5⟩, none, none,
      true, "improve", true⟩
    ⟨4, 5⟩ (some "") rfl rfl (by decide) (Or.inr rfl)

/-- C2: for every document state with the editable root present and a
captured range, applying any replacement and then invoking the undo
action restores the serialized rich content and the markdown to
byte-identical equality with their pre-replacement values, consuming the
snapshot and dismissing the toast. -/
theorem applyAiReplacement_undo_restores (normalize : String → String)
    (k : Bool → String → String) (s : AppState) (r : DomRange)
    (repl : String) (hE : s.editorPresent = true) (hR : s.selRange = some r) :
    (undoAction (applyAiReplacement normalize k s repl)).doc.html = s.doc.html ∧
    (undoAction (applyAiReplacement normalize k s repl)).doc.markdown =
      s.doc.markdown ∧
    (undoAction (applyAiReplacement normalize k s repl)).aiUndo = none ∧
    (undoAction (applyAiReplacement normalize k s repl)).toast = none := by
  simp only [applyAiReplacement, hE, hR]
  exact ⟨rfl, rfl, rfl, rfl⟩

/-- Witness for C2: the spec's scenario — replacing `"quick"` by
`"brown"` in `"The quick fox"` and undoing restores the document. -/
theorem applyAiReplacement_undo_restores_witness :
    (undoAction (applyAiReplacement (fun h => h) (fun _ e => e)
        ⟨true, ⟨"The quick fox", "The quick fox"⟩, some ⟨4, 5⟩, none, none,
          false, "", false⟩ "brown")).doc.html = "The quick fox" ∧
    (undoAction (applyAiReplacement (fun h => h) (fun _ e => e)
        ⟨true, ⟨"The quick fox", "The quick fox"⟩, some ⟨4, 5⟩, none, none,
          false, "", false⟩ "brown")).doc.markdown = "The quick fox" ∧
    (undoAction (applyAiReplacement (fun h => h) (fun _ e => e)
        ⟨true, ⟨"The quick fox", "The quick fox"⟩, some ⟨4, 5⟩, none, none,
          false, "", false⟩ "brown")).aiUndo = none ∧
    (undoAction (applyAiReplacement (fun h => h) (fun _ e => e)
        ⟨true, ⟨"The quick fox", "The quick fox"⟩, some ⟨4, 5⟩, none, none,
          false, "", false⟩ "brown")).toast = none :=
  applyAiReplacement_undo_restores (fun h => h) (fun _ e => e)
    ⟨true, ⟨"The quick fox", "The quick fox"⟩, some ⟨4, 5⟩, none, none,
      false, "", false⟩ ⟨4, 5⟩ "brown" rfl rfl

/-- C9 (counterexample): after an applied replacement, the toast
auto-dismiss timer clears the toast but does not discard the Undo
Snapshot — immediately after expiry the snapshot still holds the
pre-replacement Document, so the claim that the snapshot is discarded
when the toast expires is false on the code. -/
theorem toastTimeout_keeps_snapshot :
    (toastTimeoutStep (applyAiReplacement (fun h => h) (fun _ e => e)
        ⟨true, ⟨"The quick fox", "The quick fox"⟩, some ⟨4, 5⟩, none, none,
          false, "", false⟩ "brown")).toast = none ∧
    (toastTimeoutStep (applyAiReplacement (fun h => h) (fun _ e => e)
        ⟨true, ⟨"The quick fox", "The quick fox"⟩, some ⟨4, 5⟩, none, none,
          false, "", false⟩ "brown")).aiUndo =
      some ⟨"The quick fox", "The quick fox"⟩ ∧
    (toastTimeoutStep (applyAiReplacement (fun h => h) (fun _ e => e)
        ⟨true, ⟨"The quick fox", "The quick fox"⟩, some ⟨4, 5⟩, none, none,
          false, "", false⟩ "brown")).aiUndo ≠ none := by
  decide

/-- C9 (amended): the Undo Snapshot is cleared when it is consumed by the
undo action and overwritten (with the pre-replacement Document) by a new
replacement; toast expiry only clears the toast — and with it the only
path to the undo action — leaving the snapshot reference in place. -/
theorem undoSnapshot_lifecycle (normalize : String → String)
    (k : Bool → String → String) (s : AppState) (r : DomRange)
    (repl : String) (hE : s.editorPresent = true) (hR : s.selRange = some r) :
    (toastTimeoutStep s).aiUndo = s.aiUndo ∧
    (toastTimeoutStep s).toast = none ∧
    (undoAction s).aiUndo = none ∧
    (applyAiReplacement normalize k s repl).aiUndo = some s.doc := by
  refine ⟨?_, ?_, ?_, ?_⟩
  · unfold toastTimeoutStep
    cases s.toast <;> rfl
  · unfold toastTimeoutStep
    cases h : s.toast <;> simp [h]
  · unfold undoAction
    rw [hE]
    cases h : s.aiUndo <;> simp [h]
  · simp only [applyAiReplacement, hE, hR]

/-- Witness for the amended C9 at a concrete state holding a live
snapshot and an undo toast. -/
theorem undoSnapshot_lifecycle_witness :
    (toastTimeoutStep ⟨true, ⟨"d", "d"⟩, some ⟨0, 0⟩, some ⟨"p", "p"⟩,
        some ⟨"AI edit applied.", true⟩, false, "", false⟩).aiUndo =
      (⟨true, ⟨"d", "d"⟩, some ⟨0, 0⟩, some ⟨"p", "p"⟩,
        some ⟨"AI edit applied.", true⟩, false, "", false⟩ : AppState).aiUndo ∧
    (toastTimeoutStep ⟨true, ⟨"d", "d"⟩, some ⟨0, 0⟩, some ⟨"p", "p"⟩,
        some ⟨"AI edit applied.", true⟩, false, "", false⟩).toast = none ∧
    (undoAction ⟨true, ⟨"d", "d"⟩, some ⟨0, 0⟩, some ⟨"p", "p"⟩,
        some ⟨"AI edit applied.", true⟩, false, "", false⟩).aiUndo = none ∧
    (applyAiReplacement (fun h => h) (fun _ e => e)
        ⟨true, ⟨"d", "d"⟩, some ⟨0, 0⟩, some ⟨"p", "p"⟩,
          some ⟨"AI edit applied.", true⟩, false, "", false⟩ "x").aiUndo =
      some ⟨"d", "d"⟩ :=
  undoSnapshot_lifecycle (fun h => h) (fun _ e => e)
    ⟨true, ⟨"d", "d"⟩, some ⟨0, 0⟩, some ⟨"p", "p"⟩,
      some ⟨"AI edit applied.", true⟩, false, "", false⟩
    ⟨0, 0⟩ "x" rfl rfl

/-! ## Selection reporting (`handleSelection`, page.tsx lines 195-225) -/

/-- A live window selection as `handleSelection` inspects it: whether the
range's common ancestor lies inside the editable root, whether the
selection is collapsed, and the (cloned) range itself. -/
structure LiveSelection where
  rangeInEditor : Bool
  isCollapsed : Bool
  range : DomRange
deriving DecidableEq

/-- The observable outcome of `handleSelection`: either a distinct
"no active selection" report (toolbar hidden, no Selection Metadata
computed, stored range untouched), or one of the active outcomes, each
carrying the freshly stored cloned range. -/
inductive SelectionOutcome where
  | noActiveSelection
  | keptForAi (stored : DomRange)
  | collapsedHidden (stored : DomRange)
  | toolbarShown (stored : DomRange)
deriving DecidableEq

/-- Embedding of `handleSelection` (page.tsx lines 195-225): a missing
selection (or `rangeCount === 0`), a missing editable root, or a range
outside the editable root each yield the "no active selection" report;
otherwise the cloned range is stored and a collapsed selection either
keeps the toolbar for the open AI popover or hides it, while a non-empty
selection shows the toolbar. -/
def handleSelection (editorPresent : Bool) (sel : Option LiveSelection)
    (aiOpen : Bool) : SelectionOutcome :=
  match sel, editorPresent with
  | none, _ => SelectionOutcome.noActiveSelection
  | _, false => SelectionOutcome.noActiveSelection
  | some l, true =>
    if l.rangeInEditor = false then SelectionOutcome.noActiveSelection
    else if l.isCollapsed then
      if aiOpen then SelectionOutcome.keptForAi l.range
      else SelectionOutcome.collapsedHidden l.range
    else SelectionOutcome.toolbarShown l.range

/-- C7: whenever the editable root contains no selection (no selection
object, zero ranges, or a missing root), or the selection lies outside
the editable root, the Selection Locator reports the distinct
"no active selection" outcome — a constructor carrying no Selection
Metadata at all, rather than metadata with fabricated zero offsets. -/
theorem handleSelection_no_active (editorPresent : Bool)
    (sel : Option LiveSelection) (aiOpen : Bool)
    (h : sel = none ∨ editorPresent = false ∨
      ∃ l, sel = some l ∧ l.rangeInEditor = false) :
    handleSelection editorPresent sel aiOpen =
      SelectionOutcome.noActiveSelection := by
  rcases h with h | h | ⟨l, hl, hr⟩
  · subst h
    cases editorPresent <;> rfl
  · subst h
    cases sel <;> rfl
  · subst hl
    cases editorPresent with
    | false => rfl
    | true => simp [handleSelection, hr]

/-- Witness for C7: a selection outside the editable root is reported as
"no active selection". -/
theorem handleSelection_no_active_witness :
    handleSelection true (some ⟨false, false, ⟨0, 0⟩⟩) false =
      SelectionOutcome.noActiveSelection :=
  handleSelection_no_active true (some ⟨false, false, ⟨0, 0⟩⟩) false
    (Or.inr (Or.inr ⟨⟨false, false, ⟨0, 0⟩⟩, rfl, rfl⟩))

/-! ## The `/api/ai` route (`POST`, unnamed source `part_000`) -/

/-- The optional `selection` object of the request body; a `none` field
models an absent (or wrongly typed, for the `typeof`-checked fields)
property.  The source field `end` is embedded as `endVal`. -/
structure ApiSelection where
  start : Option Int
  endVal : Option Int
  length : Option Int
  percentThroughDocument : Option ℚ
  contextBefore : Option String
  contextAfter : Option String
deriving DecidableEq

/-- The request body of the `/api/ai` route; `none` models a missing
field (or one of the wrong type for the three `typeof`-checked strings). -/
structure RequestBody where
  documentText : Option String
  documentMarkdown : Option String
  selectedText : Option String
  userPrompt : Option String
  selection : Option ApiSelection

/-- The selection metadata actually rendered into the model prompt after
the route's defaulting (`part_000` lines 54-64). -/
structure ResolvedSelection where
  start : Int
  endVal : Int
  length : Int
  percent : ℚ
  contextBefore : String
  contextAfter : String
deriving DecidableEq

/-- Embedding of the defaulting in `POST` (`part_000` lines 54-64):
`start = selection?.start ?? 0`,
`end = selection?.end ?? start + selectedText.length`,
`length = selection?.length ?? selectedText.length`, `0` for a
non-numeric `percentThroughDocument`, and empty strings for non-string
context fields. -/
def resolveSelection (sel : Option ApiSelection) (selectedText : String) :
    ResolvedSelection :=
  let start := (sel.bind ApiSelection.start).getD 0
  { start := start
    endVal := (sel.bind ApiSelection.endVal).getD (start + selectedText.length)
    length := (sel.bind ApiSelection.length).getD (selectedText.length : Int)
    percent := (sel.bind ApiSelection.percentThroughDocument).getD 0
    contextBefore := (sel.bind ApiSelection.contextBefore).getD ""
    contextAfter := (sel.bind ApiSelection.contextAfter).getD "" }

/-- The outcome of the external model call inside the route's `try`:
an explicit incomplete status, a parsed structured output whose
`replacementText` may be missing (`output_parsed` null or field absent),
or a thrown error. -/
inductive ModelOutcome where
  | incomplete
  | parsed (replacementText : Option String)
  | threw
deriving DecidableEq

/-- An HTTP response of the route: an error JSON with its status, or the
200 success JSON carrying `replacementText`. -/
inductive ApiResult where
  | errorResp (status : Nat) (message : String)
  | success (replacementText : String)
deriving DecidableEq

/-- The HTTP status of a route response (`NextResponse.json` defaults to
200 on the success path). -/
def ApiResult.status : ApiResult → Nat
  | ApiResult.errorResp s _ => s
  | ApiResult.success _ => 200

/-- Embedding of the `/api/ai` route handler `POST` (`part_000`): missing
API key → 500; unparsable JSON body → 400; missing required string fields
→ 400; then the model call, whose incomplete status, missing/falsy-empty
`replacementText` or thrown error are all caught and answered with the
generic 500; otherwise 200 with the trimmed `replacementText`.  The
second component is the resolved selection metadata rendered into the
model prompt, `none` when no model call was made. -/
def POST (apiKeyPresent : Bool) (body : Option RequestBody)
    (outcome : ModelOutcome) : ApiResult × Option ResolvedSelection :=
  if apiKeyPresent = false then
    (ApiResult.errorResp 500 "OPENAI_API_KEY is not configured.", none)
  else
    match body with
    | none => (ApiResult.errorResp 400 "Invalid JSON body.", none)
    | some b =>
      match b.documentText, b.selectedText, b.userPrompt with
      | some _, some selectedText, some _ =>
        let resolved := resolveSelection b.selection selectedText
        match outcome with
        | ModelOutcome.incomplete =>
          (ApiResult.errorResp 500 "AI request failed. Please try again.",
            some resolved)
        | ModelOutcome.threw =>
          (ApiResult.errorResp 500 "AI request failed. Please try again.",
            some resolved)
        | ModelOutcome.parsed rt =>
          match rt with
          | none =>
            (ApiResult.errorResp 500 "AI request failed. Please try again.",
              some resolved)
          | some t =>
            if t = "" then
              (ApiResult.errorResp 500 "AI request failed. Please try again.",
                some resolved)
            else (ApiResult.success (trimStr t), some resolved)
      | _, _, _ =>
        (ApiResult.errorResp 400
          "documentText, selectedText, and userPrompt are required.", none)

/-- C8 (code evaluated at the failing input): when the model returns a
whitespace-only `replacementText` (here a single space), the guard
`!parsed?.replacementText` passes — the string is truthy — and the route
returns a success-status 200 response whose `replacementText` is the
trimmed, hence empty, string: a success response carrying an empty
`replacementText`, contradicting the claim. -/
theorem post_whitespace_output_success_empty :
    (POST true (some ⟨some "doc", some "md", some "sel", some "prompt", none⟩)
        (ModelOutcome.parsed (some " "))).1 = ApiResult.success "" ∧
    ((POST true (some ⟨some "doc", some "md", some "sel", some "prompt", none⟩)
        (ModelOutcome.parsed (some " "))).1).status = 200 := by
  decide

/-- C10: a request body whose required strings are present is never
rejected for a missing `selection` object or missing selection fields —
the route proceeds to the model call for every outcome — and the
defaulting substitutes `start = 0`, `end = start + selectedText.length`,
`length = selectedText.length`, `percentThroughDocument = 0` and empty
context strings for whatever is absent. -/
theorem post_selection_defaults (dt dm st up : String)
    (sel : Option ApiSelection) (outcome : ModelOutcome) :
    ((POST true (some ⟨some dt, some dm, some st, some up, sel⟩)
        outcome).1.status ≠ 400) ∧
    ((POST true (some ⟨some dt, some dm, some st, some up, sel⟩)
        outcome).2 = some (resolveSelection sel st)) ∧
    (resolveSelection none st =
      ⟨0, (st.length : Int), (st.length : Int), 0, "", ""⟩) ∧
    (∀ a, sel = some a → a.start = none →
      (resolveSelection sel st).start = 0) ∧
    (∀ a, sel = some a → a.endVal = none →
      (resolveSelection sel st).endVal =
        (resolveSelection sel st).start + (st.length : Int)) ∧
    (∀ a, sel = some a → a.length = none →
      (resolveSelection sel st).length = (st.length : Int)) ∧
    (∀ a, sel = some a → a.percentThroughDocument = none →
      (resolveSelection sel st).percent = 0) ∧
    (∀ a, sel = some a → a.contextBefore = none →
      (resolveSelection sel st).contextBefore = "") ∧
    (∀ a, sel = some a → a.contextAfter = none →
      (resolveSelection sel st).contextAfter = "") := by
  refine ⟨?_, ?_, ?_, ?_, ?_, ?_, ?_, ?_, ?_⟩
  · cases outcome with
    | incomplete => simp [POST, ApiResult.status]
    | threw => simp [POST, ApiResult.status]
    | parsed rt =>
      cases rt with
      | none => simp [POST, ApiResult.status]
      | some t =>
        by_cases ht : t = "" <;> simp [POST, ApiResult.status, ht]
  · cases outcome with
    | incomplete => simp [POST]
    | threw => simp [POST]
    | parsed rt =>
      cases rt with
      | none => simp [POST]
      | some t =>
        by_cases ht : t = "" <;> simp [POST, ht]
  · simp [resolveSelection]
  · intro a ha hf
    subst ha
    simp [resolveSelection, hf]
  · intro a ha hf
    subst ha
    simp [resolveSelection, hf]
  · intro a ha hf
    subst ha
    simp [resolveSelection, hf]
  · intro a ha hf
    subst ha
    simp [resolveSelection, hf]
  · intro a ha hf
    subst ha
    simp [resolveSelection, hf]
  · intro a ha hf
    subst ha
    simp [resolveSelection, hf]

/-- Witness for C10: a body with all selection fields absent is not
rejected and resolves to the defaults. -/
theorem post_selection_defaults_witness :
    ((POST true (some ⟨some "d", some "m", some "s", some "p",
        some ⟨none, none, none, none, none, none⟩⟩)
        (ModelOutcome.parsed (some "ok"))).1.status ≠ 400) ∧
    ((POST true (some ⟨some "d", some "m", some "s", some "p",
        some ⟨none, none, none, none, none, none⟩⟩)
        (ModelOutcome.parsed (some "ok"))).2 =
      some (resolveSelection (some ⟨none, none, none, none, none, none⟩) "s")) ∧
    ((resolveSelection (some ⟨none, none, none, none, none, none⟩) "s").start
      = 0) ∧
    ((resolveSelection (some ⟨none, none, none, none, none, none⟩) "s").percent
      = 0) :=
  ⟨(post_selection_defaults "d" "m" "s" "p"
      (some ⟨none, none, none, none, none, none⟩)
      (ModelOutcome.parsed (some "ok"))).1,
   (post_selection_defaults "d" "m" "s" "p"
      (some ⟨none, none, none, none, none, none⟩)
      (ModelOutcome.parsed (some "ok"))).2.1,
   (post_selection_defaults "d" "m" "s" "p"
      (some ⟨none, none, none, none, none, none⟩)
      (ModelOutcome.parsed (some "ok"))).2.2.2.1
      ⟨none, none, none, none, none, none⟩ rfl rfl,
   (post_selection_defaults "d" "m" "s" "p"
      (some ⟨none, none, none, none, none, none⟩)
      (ModelOutcome.parsed (some "ok"))).2.2.2.2.2.2.1
      ⟨none, none, none, none, none, none⟩ rfl rfl⟩
